import Mathlib

/-!
Verification of the repository automation handler (`lamda_function.py`).

The program is embedded shallowly: Python strings are `List Char`, Python
dicts are association lists with overwrite-in-place semantics (`setKey`),
exceptions are `Except PyErr`, and the three external collaborators
(the repository hosting API, the URL parser and the generative-model
inference API) are packaged as a `World` of response functions.  The
hosting API's directory structure is a finite tree (`Entry`), matching
the per-directory listings the recursive fetcher receives.
-/

/-- Python strings, modelled as lists of characters. -/
abbrev Str := List Char

/-- Characters of a Lean string literal, used to write Python string literals. -/
def chars (s : String) : Str := s.data

/-- The backtick character (code-fence delimiter). -/
def btick : Char := Char.ofNat 96

/-- The single-quote character, used by Python `str` on a `KeyError`. -/
def squote : String := String.mk [Char.ofNat 39]

/-- Lowercase ASCII letter, the `[a-z]` class of the fence-stripping regex. -/
def isLowerAZ (c : Char) : Bool := 'a' ≤ c && c ≤ 'z'

/-- Python whitespace characters stripped by `str.strip()`. -/
def isWS (c : Char) : Bool :=
  c = ' ' || c = '\t' || c = '\n' || c = '\r' || c = Char.ofNat 11 || c = Char.ofNat 12

/-- `str.strip()`: drop leading and trailing whitespace. -/
def strip (s : Str) : Str :=
  ((s.dropWhile isWS).reverse.dropWhile isWS).reverse

/-- Greedily drop the lowercase letters following a matched ```` ``` ````,
the `[a-z]*` part of the regex `` ```[a-z]* ``. -/
def dropLowers : Str → Str
  | [] => []
  | c :: s => if isLowerAZ c then dropLowers s else c :: s

/-- `re.sub(r"```[a-z]*", "", s)`: scan left to right; a triple backtick and
the lowercase letters after it are removed, any other character is kept. -/
def subFences : Str → Str
  | [] => []
  | c :: s =>
    if c = btick then
      match s with
      | c2 :: c3 :: s3 =>
        if c2 = btick && c3 = btick then subFences (dropLowers s3)
        else c :: subFences (c2 :: c3 :: s3)
      | [c2] => [c, c2]
      | [] => [c]
    else c :: subFences s
termination_by s => s.length
decreasing_by
  · have h : ∀ t : Str, (dropLowers t).length ≤ t.length := by
      intro t
      induction t with
      | nil => simp [dropLowers]
      | cons c0 t ih =>
        simp only [dropLowers]
        split
        · exact Nat.le_succ_of_le ih
        · simp
    have h2 := h s3
    simp only [List.length_cons]
    omega
  · simp
  · simp

/-- `s.replace(c0 :: p, "")`: Python `str.replace`, scanning left to right and
deleting non-overlapping occurrences found in the original string. -/
def replaceAll (c0 : Char) (p : Str) : Str → Str
  | [] => []
  | a :: s =>
    if List.isPrefixOf (c0 :: p) (a :: s) then replaceAll c0 p (s.drop p.length)
    else a :: replaceAll c0 p s
termination_by s => s.length
decreasing_by
  · simp only [List.length_cons, List.length_drop]
    omega
  · simp

/-- Bool test for substring containment (used to state what a text contains). -/
def hasSub (p : Str) : Str → Bool
  | [] => List.isPrefixOf p []
  | c :: s => List.isPrefixOf p (c :: s) || hasSub p s

/-- The five issue-category alternatives of the analysis regex, in the order
the regex alternation tries them. -/
def issuePatterns : List Str :=
  [chars "potential security vulnerability", chars "code style issue",
   chars "performance issue", chars "code complexity issue", chars "potential bug"]

/-- `re.findall` for the fixed alternation of literal category phrases:
leftmost scan, first alternative wins, scanning resumes after each match. -/
def findall : Str → List Str
  | [] => []
  | c :: s =>
    match issuePatterns.find? (fun p => List.isPrefixOf p (c :: s)) with
    | some p => p :: findall (s.drop (p.length - 1))
    | none => findall s
termination_by s => s.length
decreasing_by
  · simp only [List.length_cons, List.length_drop]
    omega
  · simp

/-- The boilerplate preamble removed from remediation output. -/
def phrase : Str :=
  chars "Here is the fixed code without any additional explanations or summaries:"

/-- Python dict assignment `m[k] = v`: overwrite in place, else append. -/
def setKey {α β : Type} [DecidableEq α] (m : List (α × β)) (k : α) (v : β) :
    List (α × β) :=
  match m with
  | [] => [(k, v)]
  | (k0, v0) :: rest => if k0 = k then (k0, v) :: rest else (k0, v0) :: setKey rest k v

/-- Python dict lookup `m.get(k)`. -/
def lookupA {α β : Type} [DecidableEq α] (m : List (α × β)) (k : α) : Option β :=
  match m with
  | [] => none
  | (k0, v0) :: rest => if k0 = k then some v0 else lookupA rest k

/-- Python `m.update(sub)`: assign every binding of `sub` into `m`, in order. -/
def updateAll {α β : Type} [DecidableEq α] (m sub : List (α × β)) : List (α × β) :=
  sub.foldl (fun acc kv => setKey acc kv.1 kv.2) m

/-- A value carried by an invocation parameter: a JSON string or a JSON
array of strings (both occur in agent invocation events). -/
inductive PVal where
  | str : String → PVal
  | strs : List String → PVal
deriving DecidableEq

/-- Python `str()` of a parameter value, as interpolated by an f-string. -/
def PVal.render : PVal → String
  | .str s => s
  | .strs l => "[" ++ String.intercalate ", " (l.map (fun s => squote ++ s ++ squote)) ++ "]"

/-- f-string interpolation of a possibly-missing value; `None` renders as "None". -/
def renderOpt : Option PVal → String
  | none => "None"
  | some v => v.render

/-- The Python exceptions the pipeline can raise. -/
inductive PyErr where
  | keyError (key : String)
  | valueError (msg : String)
  | httpError (status : Nat) (path : Str)
  | typeError (msg : String)
  | unboundLocal (name : String)
deriving DecidableEq

/-- Python `str(e)` for each exception (a `KeyError` renders its key quoted). -/
def PyErr.msg : PyErr → String
  | .keyError k => squote ++ k ++ squote
  | .valueError m => m
  | .httpError st p => "HTTP error " ++ toString st ++ " for path " ++ String.mk p
  | .typeError m => m
  | .unboundLocal n => "cannot access local variable " ++ squote ++ n ++ squote

/-- One entry of a directory listing returned by the hosting API: a file
with the status and body of its content download, or a directory with the
status of its own listing and the entries of that listing. -/
inductive Entry where
  | file (name : Str) (dlStatus : Nat) (body : Str)
  | dir (name : Str) (listStatus : Nat) (children : List Entry)

/-- The listing of a repository branch root: its HTTP status and entries. -/
structure RepoTree where
  rootStatus : Nat
  entries : List Entry

/-- A status on which `requests.raise_for_status()` raises. -/
def badStatus (st : Nat) : Bool := 400 ≤ st && st < 600

/-- A mapping from file path to file content (a Python dict). -/
abbrev FileMap := List (Str × Str)

/-- A tree entry posted to the git data API. -/
structure TreeEntry where
  path : Str
  mode : String
  type : String
  sha : String
deriving DecidableEq

/-- A write request sent to the hosting API, in the order performed. -/
inductive GhWrite where
  | createRef (repo : String) (ref : String) (sha : String)
  | createBlob (repo : String) (content : Str)
  | createTree (repo : String) (baseTree : String) (entries : List TreeEntry)
  | createCommit (repo : String) (message : String) (tree : String) (parents : List String)
  | updateRef (repo : String) (ref : String) (sha : String)
deriving DecidableEq

/-- The external collaborators: `urlparse`, the hosting API's read and write
responses, and the model inference call.  Write responses are the `sha`
field of the returned JSON (`none` when the field is absent). -/
structure World where
  urlPath : String → String
  tree : String → String → RepoTree
  bedrock : Str → Str
  refStatus : String → String → Nat
  refObjectSha : String → String → Option String
  blobSha : Str → Option String
  commitTreeSha : String → String → Option String
  newTreeSha : String → String → List TreeEntry → Option String
  newCommitSha : String → String → List String → Option String

/-- Python `s.strip('/')` on the parsed URL path. -/
def stripSlashes (s : String) : String :=
  String.mk (((s.data.dropWhile (fun c => c = '/')).reverse.dropWhile
      (fun c => c = '/')).reverse)

/-- `urlparse(repo_link).path.strip('/')`.  `urlparse(None)` yields an empty
path (its argument coercion maps a falsy argument to the empty string), a
list argument raises. -/
def resolveRepoPath (w : World) : Option PVal → Except PyErr String
  | none => .ok ""
  | some (.str s) => .ok (stripSlashes (w.urlPath s))
  | some (.strs _) => .error (.typeError "urlparse expected a string argument")

/-- `item["path"]` of a child: the listing path joined to the entry name. -/
def joinPath (p : Str) (n : Str) : Str :=
  if p = [] then n else p ++ '/' :: n

/-- `path.split("/")[-1]`: the characters after the last slash. -/
def lastSeg (p : Str) : Str :=
  (p.reverse.takeWhile (fun c => decide (c ≠ '/'))).reverse

/-- `exclude_folders and folder_name in exclude_folders`: no check when the
exclusion value is falsy; `in` is substring search on a string value and
membership on a list value. -/
def folderExcluded (ex : Option PVal) (name : Str) : Bool :=
  match ex with
  | none => false
  | some (.str s) => if s.data = [] then false else hasSub name s.data
  | some (.strs l) => if l = [] then false else (l.map String.data).contains name

/-- The loop body of `fetch_repository_contents`: iterate a listing's items,
skipping excluded folder names, recursing into other directories (each
recursive call builds a fresh dict that is merged with `update`), and
storing each file's downloaded body without any status check. -/
def fetchItems (ex : Option PVal) (path : Str) (acc : FileMap) :
    List Entry → Except PyErr FileMap
  | [] => .ok acc
  | Entry.file n _ b :: rest => fetchItems ex path (setKey acc (joinPath path n) b) rest
  | Entry.dir n st ch :: rest =>
    if folderExcluded ex (lastSeg (joinPath path n)) then fetchItems ex path acc rest
    else if badStatus st then Except.error (PyErr.httpError st (joinPath path n))
    else
      match fetchItems ex (joinPath path n) [] ch with
      | .error e => .error e
      | .ok sub => fetchItems ex path (updateAll acc sub) rest
termination_by items => sizeOf items
decreasing_by
  all_goals simp
  all_goals omega

/-- `fetch_repository_contents(repo_link, branch, "", exclude_folders)`:
resolve the repository path, list the branch root (`raise_for_status` on
the listing), then walk the listing. -/
def fetch_repository_contents (w : World) (repo_link branch ex : Option PVal) :
    Except PyErr FileMap :=
  match resolveRepoPath w repo_link with
  | .error e => .error e
  | .ok rp =>
    let t := w.tree rp (renderOpt branch)
    if badStatus t.rootStatus then .error (.httpError t.rootStatus [])
    else fetchItems ex [] [] t.entries

/-- The analysis prompt sent to the model. -/
def anaPrompt (code : Str) : Str :=
  chars "\n\nHuman: Please analyze the following code:\n\nCode:\n" ++ code ++
    chars "\n\nAssistant:"

/-- `analyze_code`: invoke the model and extract issue labels from the
stripped completion with the fixed category regex. -/
def analyze_code (w : World) (code : Str) : List Str :=
  findall (strip (w.bedrock (anaPrompt code)))

/-- The remediation prompt, including the comma-joined issue labels. -/
def remPrompt (code : Str) (issues : List Str) : Str :=
  chars "\nHuman: Please fix the identified issues in the code below and return only the modified code without any explanations, summaries, or code block delimiters.\n\nCode:\n" ++
    code ++ chars "\n\nIssues identified:\n" ++
    (List.intercalate (chars ", ") issues) ++ chars "\n\nAssistant:"

/-- `remediate_code`: invoke the model, strip the completion, remove
code-fence markers with `re.sub`, strip, remove the boilerplate preamble
with `str.replace`, and strip again. -/
def remediate_code (w : World) (code : Str) (issues : List Str) : Str :=
  strip (replaceAll 'H' (chars "ere is the fixed code without any additional explanations or summaries:")
    (strip (subFences (strip (w.bedrock (remPrompt code issues))))))

/-- `any(file_path.endswith(ext) for ext in non_code_exts)`: iterating a
string value yields its characters as one-character strings; iterating
`None` raises a `TypeError`; `endswith` is raw suffix matching. -/
def skipAns (exts : Option PVal) (p : Str) : Except PyErr Bool :=
  match exts with
  | none => .error (.typeError "argument of type NoneType is not iterable")
  | some (.str s) => .ok (s.data.any (fun c => List.isSuffixOf [c] p))
  | some (.strs l) => .ok (l.any (fun ext => List.isSuffixOf ext.data p))

/-- The loop of `analyze_and_remediate_code` over the fetched files. -/
def aarGo (w : World) (exts : Option PVal) (acc : FileMap) :
    FileMap → Except PyErr FileMap
  | [] => .ok acc
  | (p, c) :: rest =>
    match skipAns exts p with
    | .error e => .error e
    | .ok true => aarGo w exts acc rest
    | .ok false =>
      aarGo w exts (setKey acc p (remediate_code w c (analyze_code w c))) rest

/-- `analyze_and_remediate_code(code_repo, non_code_exts)`. -/
def analyze_and_remediate_code (w : World) (code_repo : FileMap)
    (non_code_exts : Option PVal) : Except PyErr FileMap :=
  aarGo w non_code_exts [] code_repo

/-- The blob-creation loop of `create_new_branch`: post one blob per
remediated file and collect a tree entry with mode 100644 for each;
a response without a `sha` field raises a `KeyError`. -/
def mkBlobs (w : World) (rp : String) :
    FileMap → List GhWrite × Except PyErr (List TreeEntry)
  | [] => ([], .ok [])
  | (p, c) :: rest =>
    match w.blobSha c with
    | none => ([GhWrite.createBlob rp c], .error (.keyError "sha"))
    | some s =>
      let (tr, r) := mkBlobs w rp rest
      (GhWrite.createBlob rp c :: tr, r.map (fun es => ⟨p, "100644", "blob", s⟩ :: es))

/-- `create_new_branch(event)`: resolve the base commit, fail if the new
branch ref already exists, create the ref, post blobs, read the base tree,
post the new tree on top of it, post the commit with the base commit as
sole parent, and move the new ref to the commit.  Returns the writes
performed alongside the result. -/
def create_new_branch (w : World) (repo_link : Option PVal) (remediations : FileMap)
    (base_branch new_branch : Option PVal) : List GhWrite × Except PyErr (Option PVal) :=
  match resolveRepoPath w repo_link with
  | .error e => ([], .error e)
  | .ok rp =>
    match w.refObjectSha rp (renderOpt base_branch) with
    | none => ([], .error (.keyError "object"))
    | some base_commit =>
      if w.refStatus rp (renderOpt new_branch) = 200 then
        ([], .error (.valueError ("Branch " ++ renderOpt new_branch ++ " already exists.")))
      else
        let refWrite := GhWrite.createRef rp ("refs/heads/" ++ renderOpt new_branch) base_commit
        match mkBlobs w rp remediations with
        | (tr, .error e) => (refWrite :: tr, .error e)
        | (tr, .ok blobs) =>
          match w.commitTreeSha rp base_commit with
          | none => (refWrite :: tr, .error (.keyError "sha"))
          | some base_tree_sha =>
            let treeWrite := GhWrite.createTree rp base_tree_sha blobs
            match w.newTreeSha rp base_tree_sha blobs with
            | none => (refWrite :: tr ++ [treeWrite], .error (.keyError "sha"))
            | some new_tree_sha =>
              let commitWrite :=
                GhWrite.createCommit rp "Remediated code" new_tree_sha [base_commit]
              match w.newCommitSha rp new_tree_sha [base_commit] with
              | none => (refWrite :: tr ++ [treeWrite, commitWrite], .error (.keyError "sha"))
              | some new_commit_sha =>
                (refWrite :: tr ++
                   [treeWrite, commitWrite,
                    GhWrite.updateRef rp ("refs/heads/" ++ renderOpt new_branch) new_commit_sha],
                 .ok new_branch)

/-- An invocation parameter, a name/value record. -/
structure Param where
  name : String
  value : PVal
deriving DecidableEq

/-- The invocation event; a `none` field is a key absent from the dict. -/
structure Event where
  agent : Option String
  actionGroup : Option String
  function : Option String
  parameters : List Param
  messageVersion : Option String
deriving DecidableEq

/-- The inner response record, `functionResponse.responseBody.TEXT.body`
flattened to its only text payload. -/
structure ActionResponse where
  actionGroup : String
  function : String
  body : Option PVal
deriving DecidableEq

/-- The response envelope returned to the agent framework. -/
structure FinalResponse where
  response : ActionResponse
  messageVersion : String
deriving DecidableEq

/-- `{param["name"]: param["value"] for param in parameters}`. -/
def buildProps (ps : List Param) : List (String × PVal) :=
  ps.foldl (fun acc p => setKey acc p.name p.value) []

/-- The body of the `try` block after the identifier bindings: fetch,
remediate, publish, and return the new branch name as the text body. -/
def pipelineRest (w : World) (e : Event) : Except PyErr (Option PVal) :=
  let props := buildProps e.parameters
  let repo_link := lookupA props "repository_url"
  let branch := lookupA props "branch_name"
  let non_code_exts := lookupA props "file_extensions_to_exclude"
  let exclude_folders := lookupA props "folders_to_exclude"
  let new_branch_name := lookupA props "new_remediated_branch_name"
  match fetch_repository_contents w repo_link branch exclude_folders with
  | .error er => .error er
  | .ok code_repo =>
    match analyze_and_remediate_code w code_repo non_code_exts with
    | .error er => .error er
    | .ok rems =>
      (create_new_branch w repo_link rems branch new_branch_name).2

/-- The `try` block of `lambda_handler`.  An error carries the values of
the `actionGroup` and `function` locals bound at the time it was raised
(`none` when the binding statement had not yet executed). -/
def tryBlock (w : World) (e : Event) :
    Except (PyErr × Option String × Option String) FinalResponse :=
  match e.agent with
  | none => .error (.keyError "agent", none, none)
  | some _ =>
    match e.actionGroup with
    | none => .error (.keyError "actionGroup", none, none)
    | some ag =>
      match e.function with
      | none => .error (.keyError "function", some ag, none)
      | some fn =>
        match pipelineRest w e with
        | .error pe => .error (pe, some ag, some fn)
        | .ok body =>
          match e.messageVersion with
          | none => .error (.keyError "messageVersion", some ag, some fn)
          | some mv => .ok ⟨⟨ag, fn, body⟩, mv⟩

/-- The `except KeyError` clause.  Referencing an unbound local raises out
of the handler; so does the `event['messageVersion']` access. -/
def keHandler (e : Event) (key : String) (agB fnB : Option String) :
    Except PyErr FinalResponse :=
  match agB with
  | none => .error (.unboundLocal "actionGroup")
  | some ag =>
    match fnB with
    | none => .error (.unboundLocal "function")
    | some fn =>
      match e.messageVersion with
      | none => .error (.keyError "messageVersion")
      | some mv =>
        .ok ⟨⟨ag, fn, some (.str ("Missing required information: " ++ squote ++ key ++ squote))⟩, mv⟩

/-- The `except Exception` clause, same structure with a generic text. -/
def genHandler (e : Event) (pe : PyErr) (agB fnB : Option String) :
    Except PyErr FinalResponse :=
  match agB with
  | none => .error (.unboundLocal "actionGroup")
  | some ag =>
    match fnB with
    | none => .error (.unboundLocal "function")
    | some fn =>
      match e.messageVersion with
      | none => .error (.keyError "messageVersion")
      | some mv => .ok ⟨⟨ag, fn, some (.str ("Error: " ++ pe.msg))⟩, mv⟩

/-- `lambda_handler(event, context)`: run the `try` block and dispatch any
exception to the matching handler; an exception raised inside a handler
escapes the function. -/
def lambda_handler (w : World) (e : Event) : Except PyErr FinalResponse :=
  match tryBlock w e with
  | .ok r => .ok r
  | .error (pe, agB, fnB) =>
    match pe with
    | .keyError k => keHandler e k agB fnB
    | other => genHandler e other agB fnB

/-- The code-fence marker, three backticks. -/
def fence : Str := [btick, btick, btick]

/-- Name free of the path separator (true for every real repository entry). -/
def noSlash (n : Str) : Bool := n.all (fun c => decide (c ≠ '/'))

/-- Every name in the listing tree is separator-free. -/
def namesOk : List Entry → Bool
  | [] => true
  | Entry.file n _ _ :: rest => noSlash n && namesOk rest
  | Entry.dir n _ ch :: rest => noSlash n && namesOk ch && namesOk rest
termination_by items => sizeOf items
decreasing_by
  all_goals simp
  all_goals omega

/-- All files of the listing tree: for each, the names of the directories
on the way down to it, its full path and its content body. -/
def filesOf (path : Str) : List Entry → List (List Str × Str × Str)
  | [] => []
  | Entry.file n _ b :: rest => ([], joinPath path n, b) :: filesOf path rest
  | Entry.dir n _ ch :: rest =>
    (filesOf (joinPath path n) ch).map (fun x => (n :: x.1, x.2)) ++ filesOf path rest
termination_by items => sizeOf items
decreasing_by
  all_goals simp
  all_goals omega

/-- Some listing the walk performs has a failing HTTP status: a directory
the walk enters (not excluded, at any depth) whose listing status fails. -/
def anyBadListing (ex : Option PVal) (path : Str) : List Entry → Bool
  | [] => false
  | Entry.file _ _ _ :: rest => anyBadListing ex path rest
  | Entry.dir n st ch :: rest =>
    (!folderExcluded ex (lastSeg (joinPath path n)) &&
      (badStatus st || anyBadListing ex (joinPath path n) ch)) ||
    anyBadListing ex path rest
termination_by items => sizeOf items
decreasing_by
  all_goals simp
  all_goals omega

/-- There is a file at path `p` reachable without entering a folder the
exclusion value matches. -/
def goodMem (ex : Option PVal) (path : Str) (items : List Entry) (p : Str) : Prop :=
  ∃ anc c, (anc, p, c) ∈ filesOf path items ∧ ∀ m ∈ anc, folderExcluded ex m = false

/-- The per-file remediated value recorded by the analyzer loop. -/
def remEntry (w : World) (pc : Str × Str) : Str × Str :=
  (pc.1, remediate_code w pc.2 (analyze_code w pc.2))

/-- The skip test of the analyzer loop for a list-valued exclusion. -/
def skipTest (l : List String) (p : Str) : Bool :=
  l.any (fun ext => List.isSuffixOf ext.data p)

/-- A base world whose collaborators all answer with failures or defaults. -/
def W0 : World where
  urlPath := fun _ => ""
  tree := fun _ _ => ⟨404, []⟩
  bedrock := fun _ => []
  refStatus := fun _ _ => 404
  refObjectSha := fun _ _ => none
  blobSha := fun _ => none
  commitTreeSha := fun _ _ => none
  newTreeSha := fun _ _ _ => none
  newCommitSha := fun _ _ _ => none

/-- An event with all four envelope keys present and no parameters. -/
def E0 : Event := ⟨some "A", some "AG", some "FN", [], some "1.0"⟩

/-- An event whose `agent` key is absent but whose other keys are present. -/
def E1 : Event := ⟨none, some "AG", some "FN", [], some "1.0"⟩

/-- A world whose hosting API lists an empty repository root and answers
every git-data read with a body missing the expected field. -/
def Wk : World := { W0 with tree := fun _ _ => ⟨200, []⟩ }

/-- A world that publishes successfully: the base branch `main` resolves
to commit `C1`, the new branch does not exist, and the git data API
returns shas `B1`, `T0`, `T1`, `C2`. -/
def Wc9 : World where
  urlPath := fun _ => "/o/r"
  tree := fun _ _ => ⟨404, []⟩
  bedrock := fun _ => []
  refStatus := fun _ _ => 404
  refObjectSha := fun _ b => if b = "main" then some "C1" else none
  blobSha := fun _ => some "B1"
  commitTreeSha := fun _ s => if s = "C1" then some "T0" else none
  newTreeSha := fun _ _ _ => some "T1"
  newCommitSha := fun _ _ _ => some "C2"

/-- A repository tree with a file at the root, an excluded folder holding
a file, and a kept folder holding a file. -/
def Tc5 : RepoTree :=
  ⟨200, [Entry.file (chars "a.txt") 200 (chars "A"),
         Entry.dir (chars "node_modules") 200 [Entry.file (chars "x.js") 200 (chars "X")],
         Entry.dir (chars "src") 200 [Entry.file (chars "b.txt") 200 (chars "B")]]⟩

def Wc5 : World := { W0 with tree := fun _ _ => Tc5 }

/-- A world whose only file download answers 404 with body "Not Found". -/
def Wdl : World :=
  { W0 with tree := fun _ _ => ⟨200, [Entry.file (chars "f.txt") 404 (chars "Not Found")]⟩ }

def Wc7b : World := { W0 with bedrock := fun _ => chars "hello" }

/-- The model completion two backticks, the boilerplate preamble, then
one backtick: it contains no code-fence marker itself. -/
def badCompletion : Str := btick :: btick :: (phrase ++ [btick])

def Wc7 : World := { W0 with bedrock := fun _ => badCompletion }

theorem dropLowers_length : ∀ s : Str, (dropLowers s).length ≤ s.length := by
  intro s
  induction s with
  | nil => simp [dropLowers]
  | cons c s ih =>
    simp only [dropLowers]
    split
    · exact Nat.le_succ_of_le ih
    · simp

theorem fenceChars : chars "```" = fence := by decide

theorem prefixOf_eq {p l : Str} : p.isPrefixOf l = true ↔ p <+: l :=
  List.isPrefixOf_iff_prefix

theorem hasSub_iff (p s : Str) : hasSub p s = true ↔ p <:+: s := by
  induction s with
  | nil => simp [hasSub, prefixOf_eq, List.infix_nil, List.prefix_nil]
  | cons c s ih =>
    simp only [hasSub, Bool.or_eq_true, prefixOf_eq, ih, List.infix_cons_iff]

theorem strip_infx (s : Str) : strip s <:+: s := by
  unfold strip
  have h1 : s.dropWhile isWS <:+ s := List.dropWhile_suffix isWS
  have h2 : (s.dropWhile isWS).reverse.dropWhile isWS <:+ (s.dropWhile isWS).reverse :=
    List.dropWhile_suffix isWS
  obtain ⟨a, ha⟩ := h2
  obtain ⟨q, hq⟩ := h1
  refine ⟨q, a.reverse, ?_⟩
  have h3 := congrArg List.reverse ha
  simp only [List.reverse_append, List.reverse_reverse] at h3
  conv_rhs => rw [← hq, ← h3]
  rw [List.append_assoc]

theorem hasSub_strip {p s : Str} (h : hasSub p s = false) : hasSub p (strip s) = false := by
  rcases hq : hasSub p (strip s) with _ | _
  · rfl
  · exact absurd ((hasSub_iff p s).mpr (((hasSub_iff p (strip s)).mp hq).trans (strip_infx s)))
      (by simp [h])

theorem subFences_one (c : Char) : subFences [c] = [c] := by
  by_cases h : c = btick <;> simp [subFences, h]

theorem subFences_two (c c2 : Char) : subFences [c, c2] = [c, c2] := by
  by_cases h : c = btick <;> simp [subFences, h, subFences_one]

theorem subFences_cons_ne {c : Char} (h : ¬ c = btick) (s : Str) :
    subFences (c :: s) = c :: subFences s := by
  match s with
  | [] => simp [subFences, h]
  | [c2] => simp [subFences, h, subFences_one]
  | c2 :: c3 :: s3 => simp [subFences, h]

theorem subFences_bne {c2 : Char} (h : ¬ c2 = btick) (s : Str) :
    subFences (btick :: c2 :: s) = btick :: c2 :: subFences s := by
  match s with
  | [] => simp [subFences, h, subFences_one]
  | c3 :: s3 => simp [subFences, h, subFences_cons_ne h]

theorem subFences_bbne {c3 : Char} (h : ¬ c3 = btick) (s : Str) :
    subFences (btick :: btick :: c3 :: s) = btick :: btick :: c3 :: subFences s := by
  simp [subFences, h, subFences_bne h]

theorem subFences_bbb (s : Str) :
    subFences (btick :: btick :: btick :: s) = subFences (dropLowers s) := by
  simp [subFences]

theorem noFence_aux :
    ∀ n : Nat, ∀ s : Str, s.length ≤ n → hasSub fence (subFences s) = false := by
  intro n
  induction n with
  | zero =>
    intro s hs
    have hnil : s = [] := List.eq_nil_of_length_eq_zero (Nat.le_zero.mp hs)
    subst hnil
    simp [subFences, hasSub, fence, List.isPrefixOf]
  | succ n ih =>
    intro s hs
    match s with
    | [] => simp [subFences, hasSub, fence, List.isPrefixOf]
    | [c] => rw [subFences_one]; simp [hasSub, fence, List.isPrefixOf]
    | [c, c2] => rw [subFences_two]; simp [hasSub, fence, List.isPrefixOf]
    | c :: c2 :: c3 :: r =>
      simp only [List.length_cons] at hs
      by_cases hc : c = btick
      · subst hc
        by_cases h2 : c2 = btick
        · subst h2
          by_cases h3 : c3 = btick
          · subst h3
            rw [subFences_bbb]
            exact ih (dropLowers r) (le_trans (dropLowers_length r) (by omega))
          · rw [subFences_bbne h3]
            have h3b : (btick == c3) = false := beq_eq_false_iff_ne.mpr (Ne.symm h3)
            simp [hasSub, fence, List.isPrefixOf, h3b]
            exact ih r (by omega)
        · rw [subFences_bne h2]
          have h2b : (btick == c2) = false := beq_eq_false_iff_ne.mpr (Ne.symm h2)
          simp [hasSub, fence, List.isPrefixOf, h2b]
          exact ih (c3 :: r) (by simp; omega)
      · rw [subFences_cons_ne hc]
        have hcb : (btick == c) = false := beq_eq_false_iff_ne.mpr (Ne.symm hc)
        simp [hasSub, fence, List.isPrefixOf, hcb]
        exact ih (c2 :: c3 :: r) (by simp; omega)

theorem noFence_subFences (s : Str) : hasSub fence (subFences s) = false :=
  noFence_aux s.length s le_rfl

theorem replaceAll_eq_self {c0 : Char} {p s : Str}
    (h : hasSub (c0 :: p) s = false) : replaceAll c0 p s = s := by
  induction s with
  | nil => simp [replaceAll]
  | cons a s ih =>
    simp only [hasSub, Bool.or_eq_false_iff] at h
    rw [replaceAll, if_neg (by simp [h.1]), ih h.2]

theorem setKey_nil {α β : Type} [DecidableEq α] (k : α) (v : β) :
    setKey ([] : List (α × β)) k v = [(k, v)] := rfl

theorem setKey_cons_eq {α β : Type} [DecidableEq α] (k : α) (v v0 : β)
    (rest : List (α × β)) : setKey ((k, v0) :: rest) k v = (k, v) :: rest := by
  simp [setKey]

theorem setKey_cons_ne {α β : Type} [DecidableEq α] {k0 k : α} (h : ¬ k0 = k)
    (v v0 : β) (rest : List (α × β)) :
    setKey ((k0, v0) :: rest) k v = (k0, v0) :: setKey rest k v := by
  simp [setKey, h]

theorem mem_setKey {α β : Type} [DecidableEq α] (p k : α) (v : β) :
    ∀ m : List (α × β), (∃ c, (p, c) ∈ setKey m k v) ↔ p = k ∨ ∃ c, (p, c) ∈ m := by
  intro m
  induction m with
  | nil => simp [setKey_nil]
  | cons kv rest ih =>
    obtain ⟨k0, v0⟩ := kv
    by_cases h : k0 = k
    · subst h
      rw [setKey_cons_eq]
      simp only [List.mem_cons, Prod.mk.injEq]
      constructor
      · rintro ⟨c, ⟨hp, _⟩ | hc⟩
        · exact Or.inl hp
        · exact Or.inr ⟨c, Or.inr hc⟩
      · rintro (hp | ⟨c, ⟨hp, _⟩ | hc⟩)
        · exact ⟨v, Or.inl ⟨hp, rfl⟩⟩
        · exact ⟨v, Or.inl ⟨hp, rfl⟩⟩
        · exact ⟨c, Or.inr hc⟩
    · rw [setKey_cons_ne h]
      simp only [List.mem_cons, Prod.mk.injEq]
      constructor
      · rintro ⟨c, ⟨hp, _⟩ | hc⟩
        · exact Or.inr ⟨v0, Or.inl ⟨hp, rfl⟩⟩
        · rcases ih.mp ⟨c, hc⟩ with hk | ⟨c2, hc2⟩
          · exact Or.inl hk
          · exact Or.inr ⟨c2, Or.inr hc2⟩
      · rintro (hp | ⟨c, ⟨hp, _⟩ | hc⟩)
        · obtain ⟨c2, hc2⟩ := ih.mpr (Or.inl hp)
          exact ⟨c2, Or.inr hc2⟩
        · exact ⟨v0, Or.inl ⟨hp, rfl⟩⟩
        · obtain ⟨c2, hc2⟩ := ih.mpr (Or.inr ⟨c, hc⟩)
          exact ⟨c2, Or.inr hc2⟩

theorem mem_updateAll {α β : Type} [DecidableEq α] (p : α) :
    ∀ (sub m : List (α × β)),
      (∃ c, (p, c) ∈ updateAll m sub) ↔ (∃ c, (p, c) ∈ m) ∨ (∃ c, (p, c) ∈ sub) := by
  intro sub
  induction sub with
  | nil => simp [updateAll]
  | cons kv rest ih =>
    intro m
    have hstep : updateAll m (kv :: rest) = updateAll (setKey m kv.1 kv.2) rest := by
      simp [updateAll]
    rw [hstep, ih, mem_setKey]
    obtain ⟨k, v⟩ := kv
    simp only [List.mem_cons, Prod.mk.injEq]
    constructor
    · rintro ((hk | hm) | ⟨c, hc⟩)
      · exact Or.inr ⟨v, Or.inl ⟨hk, rfl⟩⟩
      · exact Or.inl hm
      · exact Or.inr ⟨c, Or.inr hc⟩
    · rintro (hm | ⟨c, ⟨hp, _⟩ | hc⟩)
      · exact Or.inl (Or.inr hm)
      · exact Or.inl (Or.inl hp)
      · exact Or.inr ⟨c, hc⟩

theorem lastSeg_noSlash {n : Str} (h : noSlash n = true) : lastSeg n = n := by
  unfold lastSeg
  rw [List.takeWhile_eq_self_iff.mpr, List.reverse_reverse]
  intro c hc
  exact (List.all_eq_true.mp h) c (List.mem_reverse.mp hc)

theorem lastSeg_join {n : Str} (p : Str) (h : noSlash n = true) :
    lastSeg (joinPath p n) = n := by
  unfold joinPath
  by_cases hp : p = []
  · rw [if_pos hp]
    exact lastSeg_noSlash h
  · rw [if_neg hp]
    unfold lastSeg
    have hall : ∀ c ∈ n.reverse, (fun c => decide (c ≠ '/')) c = true := by
      intro c hc
      exact (List.all_eq_true.mp h) c (List.mem_reverse.mp hc)
    have hrev : (p ++ '/' :: n).reverse = n.reverse ++ '/' :: p.reverse := by
      simp [List.reverse_append]
    rw [hrev, List.takeWhile_append_of_pos hall, List.takeWhile_cons_of_neg (by simp)]
    simp

theorem fetchItems_nil (ex : Option PVal) (path : Str) (acc : FileMap) :
    fetchItems ex path acc [] = .ok acc := by
  simp [fetchItems]

theorem fetchItems_file (ex : Option PVal) (path : Str) (acc : FileMap)
    (n0 : Str) (st : Nat) (b : Str) (rest : List Entry) :
    fetchItems ex path acc (Entry.file n0 st b :: rest) =
      fetchItems ex path (setKey acc (joinPath path n0) b) rest := by
  simp [fetchItems]

theorem fetchItems_dir_excl {ex : Option PVal} {path n0 : Str}
    (hex : folderExcluded ex (lastSeg (joinPath path n0)) = true)
    (acc : FileMap) (st : Nat) (ch rest : List Entry) :
    fetchItems ex path acc (Entry.dir n0 st ch :: rest) =
      fetchItems ex path acc rest := by
  simp [fetchItems, hex]

theorem fetchItems_dir_bad {ex : Option PVal} {path n0 : Str} {st : Nat}
    (hex : folderExcluded ex (lastSeg (joinPath path n0)) = false)
    (hb : badStatus st = true) (acc : FileMap) (ch rest : List Entry) :
    fetchItems ex path acc (Entry.dir n0 st ch :: rest) =
      .error (.httpError st (joinPath path n0)) := by
  simp [fetchItems, hex, hb]

theorem fetchItems_dir_go {ex : Option PVal} {path n0 : Str} {st : Nat}
    (hex : folderExcluded ex (lastSeg (joinPath path n0)) = false)
    (hb : badStatus st = false) (acc : FileMap) (ch rest : List Entry) :
    fetchItems ex path acc (Entry.dir n0 st ch :: rest) =
      match fetchItems ex (joinPath path n0) [] ch with
      | .error e => .error e
      | .ok sub => fetchItems ex path (updateAll acc sub) rest := by
  simp [fetchItems, hex, hb]

theorem goodMem_nil (ex : Option PVal) (path : Str) (p : Str) :
    ¬ goodMem ex path [] p := by
  simp [goodMem, filesOf]

theorem goodMem_file (ex : Option PVal) (path n0 : Str) (st : Nat) (b : Str)
    (rest : List Entry) (p : Str) :
    goodMem ex path (Entry.file n0 st b :: rest) p ↔
      p = joinPath path n0 ∨ goodMem ex path rest p := by
  unfold goodMem
  simp only [filesOf, List.mem_cons, Prod.mk.injEq]
  constructor
  · rintro ⟨anc, c, ⟨h1, h2, h3⟩ | hr, hcond⟩
    · exact Or.inl h2
    · exact Or.inr ⟨anc, c, hr, hcond⟩
  · rintro (hp | ⟨anc, c, hr, hcond⟩)
    · exact ⟨[], b, Or.inl ⟨rfl, hp, rfl⟩, by simp⟩
    · exact ⟨anc, c, Or.inr hr, hcond⟩

theorem goodMem_dir (ex : Option PVal) (path n0 : Str) (st : Nat)
    (ch rest : List Entry) (p : Str) :
    goodMem ex path (Entry.dir n0 st ch :: rest) p ↔
      ((folderExcluded ex n0 = false ∧ goodMem ex (joinPath path n0) ch p) ∨
       goodMem ex path rest p) := by
  unfold goodMem
  simp only [filesOf, List.mem_append, List.mem_map]
  constructor
  · rintro ⟨anc, c, hmap | hr, hcond⟩
    · obtain ⟨x, hx, hxe⟩ := hmap
      obtain ⟨x1, x2, x3⟩ := x
      simp only [Prod.mk.injEq] at hxe
      obtain ⟨hanc, hp2, hc2⟩ := hxe
      subst hanc
      refine Or.inl ⟨hcond n0 (by simp), x1, x3, ?_, ?_⟩
      · rw [← hp2]
        exact hx
      · intro m hm
        exact hcond m (by simp [hm])
    · exact Or.inr ⟨anc, c, hr, hcond⟩
  · rintro (⟨hex, anc, c, hm, hcond⟩ | ⟨anc, c, hr, hcond⟩)
    · refine ⟨n0 :: anc, c, Or.inl ⟨(anc, p, c), hm, rfl⟩, ?_⟩
      intro m hm2
      rcases List.mem_cons.mp hm2 with h | h
      · rw [h]; exact hex
      · exact hcond m h
    · exact ⟨anc, c, Or.inr hr, hcond⟩

theorem fetchItems_mem :
    ∀ (n : Nat), ∀ (items : List Entry), sizeOf items ≤ n →
    ∀ (ex : Option PVal) (path : Str) (acc fm : FileMap),
      namesOk items = true →
      fetchItems ex path acc items = .ok fm →
      ∀ p : Str,
        (∃ c, (p, c) ∈ fm) ↔ ((∃ c, (p, c) ∈ acc) ∨ goodMem ex path items p) := by
  intro n
  induction n with
  | zero => intro items hs; cases items <;> simp at hs
  | succ n ih =>
    intro items hs ex path acc fm hnok heq p
    match items with
    | [] =>
      rw [fetchItems_nil] at heq
      cases heq
      simp [goodMem_nil]
    | Entry.file n0 st b :: rest =>
      simp only [namesOk, Bool.and_eq_true] at hnok
      have hsr : sizeOf rest ≤ n := by simp at hs; omega
      rw [fetchItems_file] at heq
      rw [ih rest hsr ex path _ fm hnok.2 heq p, mem_setKey, goodMem_file]
      tauto
    | Entry.dir n0 st ch :: rest =>
      simp only [namesOk, Bool.and_eq_true] at hnok
      obtain ⟨⟨hn0, hch⟩, hrest⟩ := hnok
      have hsr : sizeOf rest ≤ n := by simp at hs; omega
      have hsc : sizeOf ch ≤ n := by simp at hs; omega
      by_cases hex : folderExcluded ex n0 = true
      · rw [fetchItems_dir_excl (by rw [lastSeg_join path hn0]; exact hex)] at heq
        rw [ih rest hsr ex path acc fm hrest heq p, goodMem_dir]
        have hne : ¬ folderExcluded ex n0 = false := by simp [hex]
        tauto
      · have hexf : folderExcluded ex n0 = false := by simpa using hex
        by_cases hb : badStatus st = true
        · rw [fetchItems_dir_bad (by rw [lastSeg_join path hn0]; exact hexf) hb] at heq
          exact absurd heq (by simp)
        · have hbf : badStatus st = false := by simpa using hb
          rw [fetchItems_dir_go (by rw [lastSeg_join path hn0]; exact hexf) hbf] at heq
          rcases hch2 : fetchItems ex (joinPath path n0) [] ch with e | sub
          · rw [hch2] at heq
            simp at heq
          · rw [hch2] at heq
            simp only at heq
            rw [ih rest hsr ex path _ fm hrest heq p, mem_updateAll, goodMem_dir]
            have hsub := ih ch hsc ex (joinPath path n0) [] sub hch hch2 p
            simp only [List.not_mem_nil, exists_const, false_or] at hsub
            rw [hsub]
            simp only [hexf, true_and]
            tauto

theorem fetchItems_err :
    ∀ (n : Nat), ∀ (items : List Entry), sizeOf items ≤ n →
    ∀ (ex : Option PVal) (path : Str) (acc : FileMap),
      (∃ e, fetchItems ex path acc items = .error e) ↔
        anyBadListing ex path items = true := by
  intro n
  induction n with
  | zero => intro items hs; cases items <;> simp at hs
  | succ n ih =>
    intro items hs ex path acc
    match items with
    | [] =>
      rw [fetchItems_nil]
      simp [anyBadListing]
    | Entry.file n0 st b :: rest =>
      have hsr : sizeOf rest ≤ n := by simp at hs; omega
      rw [fetchItems_file]
      rw [ih rest hsr ex path _]
      simp [anyBadListing]
    | Entry.dir n0 st ch :: rest =>
      have hsr : sizeOf rest ≤ n := by simp at hs; omega
      have hsc : sizeOf ch ≤ n := by simp at hs; omega
      by_cases hex : folderExcluded ex (lastSeg (joinPath path n0)) = true
      · rw [fetchItems_dir_excl hex, ih rest hsr ex path acc]
        simp [anyBadListing, hex]
      · have hexf : folderExcluded ex (lastSeg (joinPath path n0)) = false := by
          simpa using hex
        by_cases hb : badStatus st = true
        · rw [fetchItems_dir_bad hexf hb]
          simp [anyBadListing, hexf, hb]
        · have hbf : badStatus st = false := by simpa using hb
          rw [fetchItems_dir_go hexf hbf]
          rcases hch2 : fetchItems ex (joinPath path n0) [] ch with e | sub
          · have hbad : anyBadListing ex (joinPath path n0) ch = true :=
              (ih ch hsc ex (joinPath path n0) []).mp ⟨e, hch2⟩
            simp [anyBadListing, hexf, hbf, hbad]
          · have hgood : anyBadListing ex (joinPath path n0) ch = false := by
              rcases hq : anyBadListing ex (joinPath path n0) ch with _ | _
              · rfl
              · obtain ⟨e, he⟩ := (ih ch hsc ex (joinPath path n0) []).mpr hq
                rw [hch2] at he
                exact absurd he (by simp)
            simp only
            rw [ih rest hsr ex path _]
            simp [anyBadListing, hexf, hbf, hgood]

theorem lookupA_append_left {α β : Type} [DecidableEq α] {k : α} :
    ∀ {a : List (α × β)} (b : List (α × β)),
      lookupA a k = none → lookupA (a ++ b) k = lookupA b k := by
  intro a
  induction a with
  | nil => intro b _; rfl
  | cons kv rest ih =>
    intro b h
    obtain ⟨k0, v0⟩ := kv
    by_cases hk : k0 = k
    · rw [lookupA, if_pos hk] at h
      exact absurd h (by simp)
    · rw [lookupA, if_neg hk] at h
      rw [List.cons_append, lookupA, if_neg hk]
      exact ih b h

theorem setKey_append {α β : Type} [DecidableEq α] {k : α} (v : β) :
    ∀ {m : List (α × β)}, lookupA m k = none → setKey m k v = m ++ [(k, v)] := by
  intro m
  induction m with
  | nil => intro _; rfl
  | cons kv rest ih =>
    intro h
    obtain ⟨k0, v0⟩ := kv
    by_cases hk : k0 = k
    · rw [lookupA, if_pos hk] at h
      exact absurd h (by simp)
    · rw [lookupA, if_neg hk] at h
      rw [setKey_cons_ne hk, ih h, List.cons_append]

theorem skipAns_strs (l : List String) (p : Str) :
    skipAns (some (.strs l)) p = .ok (skipTest l p) := rfl

theorem aar_spec (w : World) (l : List String) :
    ∀ (repo acc : FileMap),
      (∀ q ∈ repo.map Prod.fst, lookupA acc q = none) →
      (repo.map Prod.fst).Nodup →
      aarGo w (some (.strs l)) acc repo =
        .ok (acc ++ (repo.filter (fun pc => !skipTest l pc.1)).map (remEntry w)) := by
  intro repo
  induction repo with
  | nil => intro acc _ _; simp [aarGo]
  | cons pc rest ih =>
    intro acc hlk hnd
    obtain ⟨p, c⟩ := pc
    simp only [List.map_cons, List.nodup_cons] at hnd
    rcases hsk : skipTest l p with _ | _
    · have heq : aarGo w (some (.strs l)) acc ((p, c) :: rest) =
          aarGo w (some (.strs l)) (setKey acc p (remediate_code w c (analyze_code w c))) rest := by
        simp [aarGo, skipAns_strs, hsk]
      rw [heq]
      have hlkp : lookupA acc p = none := hlk p (by simp)
      rw [setKey_append _ hlkp] at *
      have hlk2 : ∀ q ∈ rest.map Prod.fst,
          lookupA (acc ++ [(p, remediate_code w c (analyze_code w c))]) q = none := by
        intro q hq
        rw [lookupA_append_left _ (hlk q (by simp [hq]))]
        have hqp : ¬ p = q := fun hh => hnd.1 (hh ▸ hq)
        simp [lookupA, hqp]
      rw [ih _ hlk2 hnd.2]
      simp [List.filter_cons, hsk, remEntry, List.append_assoc]
    · have heq : aarGo w (some (.strs l)) acc ((p, c) :: rest) =
          aarGo w (some (.strs l)) acc rest := by
        simp [aarGo, skipAns_strs, hsk]
      rw [heq, ih _ (fun q hq => hlk q (by simp [hq])) hnd.2]
      simp [List.filter_cons, hsk]

theorem lookupA_rem_not_mem (w : World) (q : Str × Str → Bool) :
    ∀ (repo : FileMap) (p : Str), (∀ x ∈ repo, ¬ x.1 = p) →
      lookupA ((repo.filter q).map (remEntry w)) p = none := by
  intro repo
  induction repo with
  | nil => intro p _; rfl
  | cons pc rest ih =>
    intro p hne
    rcases hq : q pc with _ | _
    · simp only [List.filter_cons, hq, cond_false]
      exact ih p (fun x hx => hne x (by simp [hx]))
    · rw [List.filter_cons_of_pos hq, List.map_cons]
      unfold remEntry
      rw [lookupA, if_neg (hne pc (by simp))]
      exact ih p (fun x hx => hne x (by simp [hx]))

theorem lookupA_rem_kept (w : World) (q : Str × Str → Bool) :
    ∀ (repo : FileMap) (p c : Str), (p, c) ∈ repo →
      (repo.map Prod.fst).Nodup → q (p, c) = true →
      lookupA ((repo.filter q).map (remEntry w)) p =
        some (remediate_code w c (analyze_code w c)) := by
  intro repo
  induction repo with
  | nil => intro p c hm; exact absurd hm (by simp)
  | cons pc rest ih =>
    intro p c hm hnd hq
    obtain ⟨p0, c0⟩ := pc
    simp only [List.map_cons, List.nodup_cons] at hnd
    rcases List.mem_cons.mp hm with he | hr
    · obtain ⟨hp, hc⟩ := Prod.mk.injEq .. ▸ he
      subst hp; subst hc
      rw [List.filter_cons_of_pos hq, List.map_cons]
      unfold remEntry
      rw [lookupA, if_pos rfl]
    · have hne : ¬ p0 = p := by
        intro hh
        exact hnd.1 (hh ▸ (List.mem_map.mpr ⟨(p, c), hr, rfl⟩))
      rcases hq0 : q (p0, c0) with _ | _
      · simp only [List.filter_cons, hq0, cond_false]
        exact ih p c hr hnd.2 hq
      · rw [List.filter_cons_of_pos hq0, List.map_cons]
        unfold remEntry
        rw [lookupA, if_neg hne]
        exact ih p c hr hnd.2 hq

theorem lookupA_rem_dropped (w : World) (q : Str × Str → Bool) :
    ∀ (repo : FileMap) (p c : Str), (p, c) ∈ repo →
      (repo.map Prod.fst).Nodup → q (p, c) = false →
      lookupA ((repo.filter q).map (remEntry w)) p = none := by
  intro repo
  induction repo with
  | nil => intro p c hm; exact absurd hm (by simp)
  | cons pc rest ih =>
    intro p c hm hnd hq
    obtain ⟨p0, c0⟩ := pc
    simp only [List.map_cons, List.nodup_cons] at hnd
    rcases List.mem_cons.mp hm with he | hr
    · obtain ⟨hp, hc⟩ := Prod.mk.injEq .. ▸ he
      subst hp; subst hc
      simp only [List.filter_cons, hq, cond_false]
      apply lookupA_rem_not_mem
      intro x hx hh
      exact hnd.1 (hh ▸ (List.mem_map.mpr ⟨x, hx, rfl⟩))
    · have hne : ¬ p0 = p := by
        intro hh
        exact hnd.1 (hh ▸ (List.mem_map.mpr ⟨(p, c), hr, rfl⟩))
      rcases hq0 : q (p0, c0) with _ | _
      · simp only [List.filter_cons, hq0, cond_false]
        exact ih p c hr hnd.2 hq
      · rw [List.filter_cons_of_pos hq0, List.map_cons]
        unfold remEntry
        rw [lookupA, if_neg hne]
        exact ih p c hr hnd.2 hq

theorem mkBlobs_ok (w : World) (rp : String) :
    ∀ rems : FileMap, (∀ pc ∈ rems, (w.blobSha pc.2).isSome = true) →
      mkBlobs w rp rems =
        (rems.map (fun pc => GhWrite.createBlob rp pc.2),
         .ok (rems.map (fun pc =>
           ⟨pc.1, "100644", "blob", (w.blobSha pc.2).getD ""⟩))) := by
  intro rems
  induction rems with
  | nil => intro _; rfl
  | cons pc rest ih =>
    intro hb
    obtain ⟨p, c⟩ := pc
    have hbc : (w.blobSha c).isSome = true := hb (p, c) (by simp)
    obtain ⟨s, hs⟩ := Option.isSome_iff_exists.mp hbc
    rw [mkBlobs, hs, ih (fun x hx => hb x (by simp [hx]))]
    simp [hs, Except.map]

theorem hasSub_tail {p : Str} {c : Char} {s : Str} (h : hasSub p (c :: s) = false) :
    hasSub p s = false := by
  rw [hasSub, Bool.or_eq_false_iff] at h
  exact h.2

theorem subFences_eq_self :
    ∀ (n : Nat) (s : Str), s.length ≤ n → hasSub fence s = false → subFences s = s := by
  intro n
  induction n with
  | zero =>
    intro s hs _
    have hnil : s = [] := List.eq_nil_of_length_eq_zero (Nat.le_zero.mp hs)
    subst hnil
    simp [subFences]
  | succ n ih =>
    intro s hs hns
    match s with
    | [] => simp [subFences]
    | [c] => exact subFences_one c
    | [c, c2] => exact subFences_two c c2
    | c :: c2 :: c3 :: r =>
      simp only [List.length_cons] at hs
      have h1 : List.isPrefixOf fence (c :: c2 :: c3 :: r) = false := by
        rw [hasSub, Bool.or_eq_false_iff] at hns
        exact hns.1
      have hns2 : hasSub fence (c2 :: c3 :: r) = false := hasSub_tail hns
      have hns3 : hasSub fence (c3 :: r) = false := hasSub_tail hns2
      have hns4 : hasSub fence r = false := hasSub_tail hns3
      by_cases hc : c = btick
      · subst hc
        by_cases h2 : c2 = btick
        · subst h2
          by_cases h3 : c3 = btick
          · subst h3
            simp [fence, List.isPrefixOf] at h1
          · rw [subFences_bbne h3, ih r (by omega) hns4]
        · rw [subFences_bne h2, ih (c3 :: r) (by simp; omega) hns3]
      · rw [subFences_cons_ne hc, ih (c2 :: c3 :: r) (by simp; omega) hns2]

theorem replaceAll_skip {c0 : Char} {p : Str} {a : Char} {s : Str}
    (h : List.isPrefixOf (c0 :: p) (a :: s) = false) :
    replaceAll c0 p (a :: s) = a :: replaceAll c0 p s := by
  rw [replaceAll, if_neg (by simp [h])]

theorem replaceAll_hit {c0 : Char} {p : Str} {a : Char} {s : Str}
    (h : List.isPrefixOf (c0 :: p) (a :: s) = true) :
    replaceAll c0 p (a :: s) = replaceAll c0 p (s.drop p.length) := by
  rw [replaceAll, if_pos h]

/-- C3: if a ref with the new branch name already exists (the ref lookup
answers 200 for it in every repository), `create_new_branch` fails with an
error and performs no write at all - no ref creation, no blob, no tree, no
commit. -/
theorem c3_existing_branch_guard (w : World) (link : Option PVal) (rems : FileMap)
    (bb nb : Option PVal)
    (h200 : ∀ rp : String, w.refStatus rp (renderOpt nb) = 200) :
    (create_new_branch w link rems bb nb).1 = [] ∧
      ∃ e, (create_new_branch w link rems bb nb).2 = .error e := by
  unfold create_new_branch
  cases hr : resolveRepoPath w link with
  | error e => exact ⟨rfl, e, rfl⟩
  | ok rp =>
    dsimp only
    cases hro : w.refObjectSha rp (renderOpt bb) with
    | none => exact ⟨rfl, .keyError "object", rfl⟩
    | some bc =>
      dsimp only
      rw [if_pos (h200 rp)]
      exact ⟨rfl, _, rfl⟩

/-- C3 witness: a concrete world whose ref lookup reports the new branch
name as existing; the publish performs no write and errors. -/
theorem c3_witness :
    (create_new_branch { W0 with refStatus := fun _ _ => 200 }
        (some (.str "https://github.com/o/r")) [] (some (.str "main"))
        (some (.str "fix/1"))).1 = [] ∧
      ∃ e, (create_new_branch { W0 with refStatus := fun _ _ => 200 }
        (some (.str "https://github.com/o/r")) [] (some (.str "main"))
        (some (.str "fix/1"))).2 = .error e :=
  c3_existing_branch_guard _ _ _ _ _ (fun _ => rfl)

/-- C4: for a FileMap with distinct keys and a list-valued extension
exclusion, the analyzer/remediator returns a RemediationMap whose keys are
exactly the keys whose path does not end with any excluded extension. -/
theorem c4_keys_exactly_non_excluded (w : World) (repo : FileMap) (l : List String)
    (hnd : (repo.map Prod.fst).Nodup) :
    ∃ m, analyze_and_remediate_code w repo (some (.strs l)) = .ok m ∧
      m.map Prod.fst = (repo.filter (fun pc => !skipTest l pc.1)).map Prod.fst := by
  have h := aar_spec w l repo [] (fun q _ => rfl) hnd
  refine ⟨_, h, ?_⟩
  simp [List.map_map, Function.comp_def, remEntry]

/-- C4 witness: the claim's concrete scenario - FileMap with keys `a.py`
and `README.md`, exclusion `[".md"]`, result keys exactly `["a.py"]`. -/
theorem c4_witness :
    ∃ m, analyze_and_remediate_code W0
        [(chars "a.py", chars "print(1)"), (chars "README.md", chars "hi")]
        (some (.strs [".md"])) = .ok m ∧
      m.map Prod.fst = [chars "a.py"] := by
  obtain ⟨m, hm, hk⟩ := c4_keys_exactly_non_excluded W0
    [(chars "a.py", chars "print(1)"), (chars "README.md", chars "hi")] [".md"]
    (by decide)
  refine ⟨m, hm, ?_⟩
  rw [hk]
  decide

/-- C8: a file kept by the extension filter always gets an entry in the
result, and its value is produced by the remediation call - also when the
analysis extracted zero issues, in which case the recorded value is the
remediation of the file with an empty issue list. -/
theorem c8_remediation_unconditional (w : World) (repo : FileMap) (l : List String)
    (p c : Str) (hm : (p, c) ∈ repo) (hnd : (repo.map Prod.fst).Nodup)
    (hkeep : skipTest l p = false) (hzero : analyze_code w c = []) :
    ∃ m, analyze_and_remediate_code w repo (some (.strs l)) = .ok m ∧
      lookupA m p = some (remediate_code w c []) := by
  have h := aar_spec w l repo [] (fun q _ => rfl) hnd
  refine ⟨_, h, ?_⟩
  have hl := lookupA_rem_kept w (fun pc => !skipTest l pc.1) repo p c hm hnd
    (by simp [hkeep])
  rw [List.nil_append, hl, hzero]

/-- C8 witness: a model whose analysis completion matches no category
phrase; zero issues are extracted and the file is still remediated. -/
theorem c8_witness :
    ∃ m, analyze_and_remediate_code { W0 with bedrock := fun _ => chars "ok" }
        [(chars "a.py", chars "print(1)")] (some (.strs [])) = .ok m ∧
      lookupA m (chars "a.py") =
        some (remediate_code { W0 with bedrock := fun _ => chars "ok" }
          (chars "print(1)") []) := by
  apply c8_remediation_unconditional
  · simp
  · decide
  · decide
  · show findall (strip (chars "ok")) = []
    have h1 : strip (chars "ok") = chars "ok" := by decide
    rw [h1]
    simp [findall, issuePatterns, chars]

/-- C10: membership in the analyzer result is decided by raw character
suffix matching of the exclusion entries against the full path - an entry
matches with no dot or extension parsing, so `py` also matches `happy` and
an entry may span a directory separator. -/
theorem c10_exclusion_is_raw_suffix (w : World) (repo : FileMap) (l : List String)
    (p c : Str) (hm : (p, c) ∈ repo) (hnd : (repo.map Prod.fst).Nodup) :
    ∃ m, analyze_and_remediate_code w repo (some (.strs l)) = .ok m ∧
      (lookupA m p = none ↔ ∃ ext ∈ l, List.isSuffixOf ext.data p = true) := by
  have h := aar_spec w l repo [] (fun q _ => rfl) hnd
  refine ⟨_, h, ?_⟩
  rcases hsk : skipTest l p with _ | _
  · have hl := lookupA_rem_kept w (fun pc => !skipTest l pc.1) repo p c hm hnd
      (by simp [hsk])
    rw [List.nil_append, hl]
    constructor
    · intro hcontra
      exact absurd hcontra (by simp)
    · rintro ⟨ext, hx, hsf⟩
      have : skipTest l p = true := List.any_eq_true.mpr ⟨ext, hx, hsf⟩
      rw [this] at hsk
      cases hsk
  · have hl := lookupA_rem_dropped w (fun pc => !skipTest l pc.1) repo p c hm hnd
      (by simp [hsk])
    rw [List.nil_append, hl]
    simp only [true_iff]
    exact List.any_eq_true.mp hsk

/-- C10 witness: the exclusion entry `py` (no dot) excludes the path
`happy`, which merely ends in those two characters. -/
theorem c10_witness :
    ∃ m, analyze_and_remediate_code W0 [(chars "happy", chars "x")]
        (some (.strs ["py"])) = .ok m ∧
      lookupA m (chars "happy") = none := by
  obtain ⟨m, hm, hiff⟩ := c10_exclusion_is_raw_suffix W0 [(chars "happy", chars "x")]
    ["py"] (chars "happy") (chars "x") (by simp) (by decide)
  exact ⟨m, hm, hiff.mpr ⟨"py", by simp, by decide⟩⟩

theorem tryBlock_bound (w : World) (e : Event) {a ag fn mv : String}
    (ha : e.agent = some a) (hag : e.actionGroup = some ag)
    (hfn : e.function = some fn) (hmv : e.messageVersion = some mv) :
    tryBlock w e =
      (match pipelineRest w e with
       | .error pe => .error (pe, some ag, some fn)
       | .ok body => .ok ⟨⟨ag, fn, body⟩, mv⟩) := by
  unfold tryBlock
  rw [ha]
  dsimp only
  rw [hag]
  dsimp only
  rw [hfn]
  dsimp only
  cases pipelineRest w e with
  | error pe => rfl
  | ok body =>
    dsimp only
    rw [hmv]

/-- C1: amended form - when the event carries the `agent`, `actionGroup`,
`function` and `messageVersion` keys, `lambda_handler` returns a response
envelope for every world: the success path and both exception handlers
produce the same envelope shape with a TEXT body, and no exception escapes.
(Without those keys the handlers themselves raise; see the
counterexample.) -/
theorem c1_envelope (w : World) (e : Event) (a ag fn mv : String)
    (ha : e.agent = some a) (hag : e.actionGroup = some ag)
    (hfn : e.function = some fn) (hmv : e.messageVersion = some mv) :
    ∃ body, lambda_handler w e = .ok ⟨⟨ag, fn, body⟩, mv⟩ := by
  unfold lambda_handler
  rw [tryBlock_bound w e ha hag hfn hmv]
  cases hp : pipelineRest w e with
  | ok body => exact ⟨body, rfl⟩
  | error pe =>
    dsimp only
    cases pe with
    | keyError k =>
      exact ⟨some (.str ("Missing required information: " ++ squote ++ k ++ squote)),
        by unfold keHandler; rw [hmv]⟩
    | valueError m =>
      exact ⟨some (.str ("Error: " ++ PyErr.msg (.valueError m))),
        by unfold genHandler; rw [hmv]⟩
    | httpError st p =>
      exact ⟨some (.str ("Error: " ++ PyErr.msg (.httpError st p))),
        by unfold genHandler; rw [hmv]⟩
    | typeError m =>
      exact ⟨some (.str ("Error: " ++ PyErr.msg (.typeError m))),
        by unfold genHandler; rw [hmv]⟩
    | unboundLocal nm =>
      exact ⟨some (.str ("Error: " ++ PyErr.msg (.unboundLocal nm))),
        by unfold genHandler; rw [hmv]⟩

/-- C1 witness: a concrete event with all four keys; the handler returns
an envelope with the event's identifiers even though the pipeline fails. -/
theorem c1_witness : ∃ body, lambda_handler W0 E0 = .ok ⟨⟨"AG", "FN", body⟩, "1.0"⟩ :=
  c1_envelope W0 E0 "A" "AG" "FN" "1.0" rfl rfl rfl rfl

/-- C1 counterexample: an event without the `agent` key raises `KeyError`
inside the `try` block, and the `except KeyError` handler then reads the
never-assigned `actionGroup` local - the exception escapes the handler, so
`lambda_handler` raises past the boundary instead of returning an
envelope. -/
theorem c1_counterexample :
    lambda_handler W0 E1 = .error (.unboundLocal "actionGroup") := rfl

/-- C2: amended form - a `KeyError` raised after the `actionGroup` and
`function` locals were bound, on an event that has `messageVersion`, is
reported as a "Missing required information" text body naming the
`KeyError` key (whatever key that is - not the missing parameter). -/
theorem c2_missing_key_text (w : World) (e : Event) (a ag fn mv k : String)
    (ha : e.agent = some a) (hag : e.actionGroup = some ag)
    (hfn : e.function = some fn) (hmv : e.messageVersion = some mv)
    (hp : pipelineRest w e = .error (.keyError k)) :
    lambda_handler w e =
      .ok ⟨⟨ag, fn, some (.str ("Missing required information: " ++
        squote ++ k ++ squote))⟩, mv⟩ := by
  unfold lambda_handler
  rw [tryBlock_bound w e ha hag hfn hmv, hp]
  dsimp only
  unfold keHandler
  rw [hmv]

theorem Wk_fetch : fetch_repository_contents Wk none none none = .ok [] := by
  unfold fetch_repository_contents resolveRepoPath
  dsimp only
  rw [if_neg (by decide)]
  exact fetchItems_nil none [] []

/-- C2 witness: with every envelope key present, an empty repository and a
branch-ref response without the `object` field, the pipeline raises
`KeyError('object')` and the response body names that key. -/
theorem c2_witness :
    lambda_handler Wk E0 =
      .ok ⟨⟨"AG", "FN", some (.str ("Missing required information: " ++
        squote ++ "object" ++ squote))⟩, "1.0"⟩ := by
  apply c2_missing_key_text Wk E0 "A" "AG" "FN" "1.0" "object" rfl rfl rfl rfl
  unfold pipelineRest
  dsimp only [E0, buildProps, List.foldl, lookupA]
  rw [Wk_fetch]
  rfl

/-- C2 counterexample: an event whose parameters lack `repository_url`
does not produce a "Missing required information" body - `properties.get`
returns `None` without raising `KeyError`, the pipeline fails downstream,
and the body is a generic "Error: ..." text. -/
theorem c2_counterexample :
    lookupA (buildProps E0.parameters) "repository_url" = none ∧
    lambda_handler W0 E0 =
      .ok ⟨⟨"AG", "FN", some (.str ("Error: " ++ PyErr.msg (.httpError 404 [])))⟩,
        "1.0"⟩ ∧
    hasSub (chars "Missing required information")
      (chars ("Error: " ++ PyErr.msg (.httpError 404 []))) = false := by
  refine ⟨rfl, rfl, by decide⟩

/-- C9: on a successful publish, the writes are exactly: create the new
ref at the base commit, one blob per remediated file, a tree with the
base commit's tree as `base_tree` and one mode-100644 blob entry per file
at its path, a commit whose tree is the newly created tree and whose sole
parent is the base commit, and a ref update moving the new branch to that
commit; the returned value is the new branch name. -/
theorem c9_publish_writes (w : World) (u : String) (rems : FileMap)
    (bb nb c1 t nt nc : String)
    (hbase : w.refObjectSha (stripSlashes (w.urlPath u)) bb = some c1)
    (hnew : ¬ w.refStatus (stripSlashes (w.urlPath u)) nb = 200)
    (hblobs : ∀ pc ∈ rems, (w.blobSha pc.2).isSome = true)
    (htree : w.commitTreeSha (stripSlashes (w.urlPath u)) c1 = some t)
    (hnt : w.newTreeSha (stripSlashes (w.urlPath u)) t
      (rems.map (fun pc => ⟨pc.1, "100644", "blob", (w.blobSha pc.2).getD ""⟩)) =
      some nt)
    (hnc : w.newCommitSha (stripSlashes (w.urlPath u)) nt [c1] = some nc) :
    create_new_branch w (some (.str u)) rems (some (.str bb)) (some (.str nb)) =
      (GhWrite.createRef (stripSlashes (w.urlPath u)) ("refs/heads/" ++ nb) c1 ::
        rems.map (fun pc => GhWrite.createBlob (stripSlashes (w.urlPath u)) pc.2) ++
        [GhWrite.createTree (stripSlashes (w.urlPath u)) t
           (rems.map (fun pc => ⟨pc.1, "100644", "blob", (w.blobSha pc.2).getD ""⟩)),
         GhWrite.createCommit (stripSlashes (w.urlPath u)) "Remediated code" nt [c1],
         GhWrite.updateRef (stripSlashes (w.urlPath u)) ("refs/heads/" ++ nb) nc],
       .ok (some (.str nb))) := by
  unfold create_new_branch
  have hres : resolveRepoPath w (some (.str u)) = .ok (stripSlashes (w.urlPath u)) := rfl
  rw [hres]
  dsimp only
  have hrb : renderOpt (some (.str bb)) = bb := rfl
  have hrn : renderOpt (some (.str nb)) = nb := rfl
  rw [hrb, hrn, hbase]
  dsimp only
  rw [if_neg hnew, mkBlobs_ok w _ rems hblobs]
  dsimp only
  rw [htree]
  dsimp only
  rw [hnt]
  dsimp only
  rw [hnc]

/-- C9 witness: the claim's scenario - base branch `main` at commit `C1`,
new branch `fix/1`, one remediated file; the write sequence and the
returned branch name are exactly as stated. -/
theorem c9_witness :
    create_new_branch Wc9 (some (.str "https://github.com/o/r"))
        [(chars "a.py", chars "fixed")] (some (.str "main")) (some (.str "fix/1")) =
      (GhWrite.createRef "o/r" ("refs/heads/" ++ "fix/1") "C1" ::
        [GhWrite.createBlob "o/r" (chars "fixed")] ++
        [GhWrite.createTree "o/r" "T0" [⟨chars "a.py", "100644", "blob", "B1"⟩],
         GhWrite.createCommit "o/r" "Remediated code" "T1" ["C1"],
         GhWrite.updateRef "o/r" ("refs/heads/" ++ "fix/1") "C2"],
       .ok (some (.str "fix/1"))) :=
  (c9_publish_writes Wc9 "https://github.com/o/r" [(chars "a.py", chars "fixed")]
    "main" "fix/1" "C1" "T0" "T1" "C2" (by decide) (by decide) (by decide)
    (by decide) (by decide) (by decide)).trans rfl

/-- C5: when the fetch succeeds and the listing names are separator-free,
the returned FileMap holds a path if and only if the tree has a file at
that path none of whose enclosing directory names matches the exclusion
value - files under a matching folder name are omitted at every depth,
and every other file is present. -/
theorem c5_fetch_exact (w : World) (u : String) (branch ex : Option PVal)
    (fm : FileMap)
    (hok : fetch_repository_contents w (some (.str u)) branch ex = .ok fm)
    (hnames : namesOk (w.tree (stripSlashes (w.urlPath u))
      (renderOpt branch)).entries = true) (p : Str) :
    (∃ c, (p, c) ∈ fm) ↔
      goodMem ex [] (w.tree (stripSlashes (w.urlPath u)) (renderOpt branch)).entries p := by
  unfold fetch_repository_contents at hok
  have hres : resolveRepoPath w (some (.str u)) = .ok (stripSlashes (w.urlPath u)) := rfl
  rw [hres] at hok
  dsimp only at hok
  by_cases hb : badStatus (w.tree (stripSlashes (w.urlPath u))
      (renderOpt branch)).rootStatus = true
  · rw [if_pos hb] at hok
    exact absurd hok (by simp)
  · rw [if_neg hb] at hok
    have h := fetchItems_mem
      (sizeOf (w.tree (stripSlashes (w.urlPath u)) (renderOpt branch)).entries) _
      le_rfl ex [] [] fm hnames hok p
    simpa using h

theorem Wc5_fetch :
    fetch_repository_contents Wc5 (some (.str "u")) none
        (some (.strs ["node_modules"])) =
      .ok [(chars "a.txt", chars "A"), (chars "src/b.txt", chars "B")] := by
  unfold fetch_repository_contents resolveRepoPath
  dsimp only
  rw [if_neg (by decide)]
  show fetchItems (some (.strs ["node_modules"])) [] [] Tc5.entries = _
  unfold Tc5
  rw [fetchItems_file, fetchItems_dir_excl (by decide),
    fetchItems_dir_go (by decide) (by decide), fetchItems_file, fetchItems_nil]
  dsimp only
  rw [fetchItems_nil]
  rfl

/-- C5 witness: on the concrete tree, the file inside the kept `src`
folder is in the result (its ancestor chain avoids the exclusion set). -/
theorem c5_witness :
    ∃ c, (chars "src/b.txt", c) ∈
      [(chars "a.txt", chars "A"), (chars "src/b.txt", chars "B")] := by
  refine (c5_fetch_exact Wc5 "u" none (some (.strs ["node_modules"])) _
    Wc5_fetch (by simp only [Wc5, W0, Tc5, namesOk]; decide)
    (chars "src/b.txt")).mpr ?_
  refine ⟨[chars "src"], chars "B", ?_, ?_⟩
  · show _ ∈ filesOf [] Tc5.entries
    unfold Tc5
    simp only [filesOf, List.map]
    decide
  · intro m hm
    simp only [List.mem_singleton] at hm
    subst hm
    decide

/-- C6: amended form - the fetch aborts with an error (returning no map
at all) exactly when the root listing or some directory listing the walk
enters has a failing HTTP status.  File content downloads are not part of
this condition: their status is never checked. -/
theorem c6_listing_failure_aborts (w : World) (u : String) (branch ex : Option PVal) :
    (∃ e, fetch_repository_contents w (some (.str u)) branch ex = .error e) ↔
      (badStatus (w.tree (stripSlashes (w.urlPath u)) (renderOpt branch)).rootStatus = true ∨
       anyBadListing ex [] (w.tree (stripSlashes (w.urlPath u))
         (renderOpt branch)).entries = true) := by
  unfold fetch_repository_contents
  have hres : resolveRepoPath w (some (.str u)) = .ok (stripSlashes (w.urlPath u)) := rfl
  rw [hres]
  dsimp only
  by_cases hb : badStatus (w.tree (stripSlashes (w.urlPath u))
      (renderOpt branch)).rootStatus = true
  · rw [if_pos hb]
    simp [hb]
  · rw [if_neg hb]
    rw [fetchItems_err (sizeOf (w.tree (stripSlashes (w.urlPath u))
      (renderOpt branch)).entries) _ le_rfl ex [] []]
    simp [hb]

/-- C6 counterexample: a failing (404) file content download does not
abort the fetch - the claim says any non-success download aborts with no
partial FileMap, but the fetch returns a full map whose entry holds the
error body as the file content. -/
theorem c6_counterexample :
    badStatus 404 = true ∧
    fetch_repository_contents Wdl (some (.str "u")) none none =
      .ok [(chars "f.txt", chars "Not Found")] := by
  refine ⟨by decide, ?_⟩
  unfold fetch_repository_contents resolveRepoPath
  dsimp only
  rw [if_neg (by decide)]
  show fetchItems none [] [] [Entry.file (chars "f.txt") 404 (chars "Not Found")] = _
  rw [fetchItems_file, fetchItems_nil]
  rfl

/-- C7: amended form - the fence-stripping pass leaves no code-fence
marker in the intermediate text, and when that intermediate text does not
contain the boilerplate preamble the final remediation contains neither a
fence nor the preamble.  (When the intermediate text does contain the
preamble, its removal splices the surrounding characters and can recreate
a fence - see the counterexample.) -/
theorem c7_fence_phrase (w : World) (code : Str) (issues : List Str) :
    hasSub fence (strip (subFences (strip (w.bedrock (remPrompt code issues))))) = false ∧
    (hasSub phrase (strip (subFences (strip (w.bedrock (remPrompt code issues))))) = false →
      hasSub fence (remediate_code w code issues) = false ∧
      hasSub phrase (remediate_code w code issues) = false) := by
  have h1 : hasSub fence (subFences (strip (w.bedrock (remPrompt code issues)))) = false :=
    noFence_subFences _
  have h2 := hasSub_strip h1
  refine ⟨h2, ?_⟩
  intro hph
  have hphr : phrase =
      'H' :: chars "ere is the fixed code without any additional explanations or summaries:" := by
    decide
  have hrepl := @replaceAll_eq_self 'H'
    (chars "ere is the fixed code without any additional explanations or summaries:")
    (strip (subFences (strip (w.bedrock (remPrompt code issues)))))
    (by rw [← hphr]; exact hph)
  unfold remediate_code
  rw [hrepl]
  exact ⟨hasSub_strip h2, hasSub_strip hph⟩

/-- C7 witness: a completion with no fence and no preamble; the final
remediation contains neither. -/
theorem c7_witness :
    hasSub fence (remediate_code Wc7b (chars "x") []) = false ∧
    hasSub phrase (remediate_code Wc7b (chars "x") []) = false := by
  apply (c7_fence_phrase Wc7b (chars "x") []).2
  have hb : Wc7b.bedrock (remPrompt (chars "x") []) = chars "hello" := rfl
  rw [hb]
  have hs1 : strip (chars "hello") = chars "hello" := by decide
  rw [hs1]
  have hs2 : subFences (chars "hello") = chars "hello" :=
    subFences_eq_self (chars "hello").length _ le_rfl (by decide)
  rw [hs2, hs1]
  decide

/-- C7 counterexample: removing the boilerplate preamble splices the two
leading backticks onto the trailing one, so the returned remediation text
is exactly a code-fence marker - the claim that the output never contains
one is false. -/
theorem c7_counterexample :
    hasSub (chars "```") (remediate_code Wc7 (chars "x") []) = true := by
  rw [fenceChars]
  unfold remediate_code
  have hb : Wc7.bedrock (remPrompt (chars "x") []) = badCompletion := rfl
  rw [hb]
  have hs1 : strip badCompletion = badCompletion := by decide
  rw [hs1]
  have hsf : subFences badCompletion = badCompletion :=
    subFences_eq_self badCompletion.length _ le_rfl (by decide)
  rw [hsf, hs1]
  have hrw : replaceAll 'H'
      (chars "ere is the fixed code without any additional explanations or summaries:")
      badCompletion = fence := by
    show replaceAll 'H' _ (btick :: btick :: (phrase ++ [btick])) = fence
    rw [replaceAll_skip (by decide), replaceAll_skip (by decide)]
    have hph : phrase ++ [btick] =
        'H' :: (chars "ere is the fixed code without any additional explanations or summaries:" ++
          [btick]) := by decide
    rw [hph, replaceAll_hit (by decide)]
    have hdrop :
        ((chars "ere is the fixed code without any additional explanations or summaries:" ++
          [btick]).drop
          (chars "ere is the fixed code without any additional explanations or summaries:").length) =
        [btick] := by decide
    rw [hdrop, replaceAll_skip (by decide)]
    have hemp : replaceAll 'H'
        (chars "ere is the fixed code without any additional explanations or summaries:")
        ([] : Str) = [] := by simp [replaceAll]
    rw [hemp]
    rfl
  rw [hrw]
  decide
